import Mathlib

/-!
Shallow embedding of the sampling engine of `src/app.py` (a pandas/streamlit
sampling dashboard) together with proofs of the specification's claims.

The embedding follows the source line by line:
  * `value_counts`   : `df[strata].value_counts()` — distinct values of a column
                       with their multiplicities, sorted by count, descending.
  * `raw_alloc`      : `(counts / total_units * n_tot).round().astype(int)` —
                       the proportional share of each stratum rounded with
                       numpy's round-half-to-even rule.  To keep every
                       definition kernel-computable, rounding is performed on
                       the exact integer fraction `(N_h * n_tot) / total`;
                       the lemma `roundHalfEvenInt_eq_share` identifies it with
                       the textbook `⌊·⌋`-based round-half-even of the rational
                       share `N_h / total * n_tot`.
  * `alloc`          : the reconciliation `alloc[alloc.idxmax()] += diff`.
  * `alloc_df`       : the allocation table `{strata, N_h, n_h}`.
  * `sample`         : `df.sample(n=n, replace=False)` — the random draw is
                       made explicit as a permutation of the row positions;
                       the draw takes the first `n` positions of it.
  * `sampled`        : the per-stratum draws concatenated by `pd.concat`.
  * `comp_df`        : the population-vs-sample proportion table.
  * `cross`          : the stratum × auxiliary-value percentage table obtained
                       from `groupby(strata)[aux].value_counts(normalize=True)
                       .mul(100).round(1)` followed by `pivot`; an unobserved
                       combination is a pivot hole, i.e. `none` (pandas `NaN`).
  * `load_data`      : `pd.concat(pd.read_excel(path, sheet_name=None).values())`.
-/

namespace Sondage

variable {α : Type} {β : Type} {γ : Type}

/-- Distinct values of a column, in order of first appearance
(the hash-table order underlying pandas `value_counts`). -/
def firstUniq [DecidableEq β] : List β → List β
  | [] => []
  | a :: l => a :: (firstUniq l).filter (fun b => decide (b ≠ a))

/-- Insert a `(value, count)` pair into a count-descending list, after every
entry whose count is at least as large (the placement is stable). -/
def insertDesc (p : β × ℕ) : List (β × ℕ) → List (β × ℕ)
  | [] => [p]
  | q :: l => if q.2 ≤ p.2 then p :: q :: l else q :: insertDesc p l

/-- Sort `(value, count)` pairs by count, descending — the `sort=True,
ascending=False` order of pandas `value_counts`. -/
def sortDesc : List (β × ℕ) → List (β × ℕ)
  | [] => []
  | p :: l => insertDesc p (sortDesc l)

/-- Embedding of `df[col].value_counts()` applied to the column `m`:
each distinct value paired with its multiplicity, sorted by count descending. -/
def value_counts [DecidableEq β] (m : List β) : List (β × ℕ) :=
  sortDesc ((firstUniq m).map (fun v => (v, m.count v)))

/-- Round-half-to-even of the exact fraction `a / b` (for `b > 0`), computed on
integers: this is numpy's rounding rule, the one `Series.round()` applies in
`(counts / total_units * n_tot).round()`. -/
def roundHalfEvenInt (a b : ℤ) : ℤ :=
  let f := Int.fdiv a b
  let r := a - b * f
  if 2 * r < b then f
  else if b < 2 * r then f + 1
  else if f % 2 = 0 then f else f + 1

/-- Exact proportional share `N_h / total_units * n_total` of a stratum, the
quantity the source computes as `counts / total_units * n_tot`. -/
def share (Nh total ntot : ℕ) : ℚ :=
  (Nh : ℚ) / total * ntot

/-- Textbook round-half-to-even on the rationals. -/
def roundHalfEven (q : ℚ) : ℤ :=
  if q - (⌊q⌋ : ℚ) < 1 / 2 then ⌊q⌋
  else if 1 / 2 < q - (⌊q⌋ : ℚ) then ⌊q⌋ + 1
  else if Even ⌊q⌋ then ⌊q⌋ else ⌊q⌋ + 1

/-- Embedding of `alloc = (counts / total_units * n_tot).round().astype(int)`:
the raw, unreconciled allocation, one `(value, n_h_raw)` pair per stratum in
`value_counts` order. -/
def raw_alloc [DecidableEq β] (m : List β) (ntot : ℕ) : List (β × ℤ) :=
  (value_counts m).map (fun p => (p.1, roundHalfEvenInt (p.2 * ntot) m.length))

/-- Largest element of a list of integers (0 for the empty list, which the
source never queries). -/
def listMax : List ℤ → ℤ
  | [] => 0
  | [a] => a
  | a :: b :: l => max a (listMax (b :: l))

/-- Position of the first occurrence of the maximum — `Series.idxmax()`
returns the label of this position. -/
def firstMaxIdx : List ℤ → ℕ
  | [] => 0
  | a :: l => if listMax (a :: l) ≤ a then 0 else firstMaxIdx l + 1

/-- Add `d` to the second component of the entry at position `j`
(`alloc[label] += diff` on a series with unique labels). -/
def addAt (d : ℤ) : List (β × ℤ) → ℕ → List (β × ℤ)
  | [], _ => []
  | p :: l, 0 => (p.1, p.2 + d) :: l
  | p :: l, j + 1 => p :: addAt d l j

/-- Embedding of the reconciliation step of the source:
`diff = n_tot - alloc.sum(); if diff != 0: alloc[alloc.idxmax()] += diff`. -/
def alloc [DecidableEq β] (m : List β) (ntot : ℕ) : List (β × ℤ) :=
  let raw := raw_alloc m ntot
  let diff := (ntot : ℤ) - (raw.map Prod.snd).sum
  if diff = 0 then raw
  else addAt diff raw (firstMaxIdx (raw.map Prod.snd))

/-- Embedding of the allocation table
`alloc_df = pd.DataFrame({strata: alloc.index, 'N_h': counts.values, 'n_h': alloc.values})`:
one row `(value, N_h, n_h)` per stratum, in `value_counts` order. -/
def alloc_df [DecidableEq β] (m : List β) (ntot : ℕ) : List (β × ℕ × ℤ) :=
  List.zipWith (fun p q => (p.1, p.2, q.2)) (value_counts m) (alloc m ntot)

/-- Embedding of the SRS draw `sample = df.sample(n=n, replace=False)`.
The randomness of pandas is made explicit: `perm` is the permutation of the
row positions `0, …, len(df)-1` chosen by the generator, and the draw keeps
the first `n` of them.  Each drawn row is returned together with its original
position (the pandas index label), which is its record identity. -/
def sample (D : List α) (perm : List ℕ) (n : ℕ) : List (ℕ × α) :=
  (perm.take n).filterMap (fun i => (D[i]?).map (fun r => (i, r)))

/-- Rows of the stratum `g`: `df[df[strata]==g]`, each row paired with its
original position, in dataset order. -/
def stratum [DecidableEq β] (D : List α) (f : α → β) (g : β) : List (ℕ × α) :=
  D.enum.filter (fun p => decide (f p.2 = g))

/-- Embedding of the stratified draw
`pd.concat([df[df[strata]==g].sample(n=min(s, len(df[df[strata]==g])), replace=False) for g, s in alloc.items()])`.
For each `(g, s)` of the allocation, in order, the draw takes
`min(s, N_h)` rows of the stratum (the permutation `perms g` of the stratum's
row positions supplies the randomness).  `df.sample` raises a `ValueError`
when its size argument is negative, which the embedding renders as `none`. -/
def sampled [DecidableEq β] (D : List α) (f : α → β) (perms : β → List ℕ) :
    List (β × ℤ) → Option (List (ℕ × α))
  | [] => some []
  | (g, s) :: rest =>
    let sub := stratum D f g
    let t : ℤ := min s (sub.length : ℤ)
    if t < 0 then none
    else
      match sampled D f perms rest with
      | none => none
      | some l => some ((((perms g).take t.toNat).filterMap (fun i => sub[i]?)) ++ l)

/-- Population (or sample) proportion of the value `v` in the column `m`:
`value_counts(normalize=True)`, i.e. `count / len`. -/
def propOf [DecidableEq β] (m : List β) (v : β) : ℚ :=
  (m.count v : ℚ) / m.length

/-- Embedding of the comparison table
`comp_df = pd.concat([pop_props, samp_props], axis=1).fillna(0)`:
one row `(v, population proportion, sample proportion)` per value listed in
either column; a value absent from one side has count 0 there, which is the
0 produced by `fillna(0)`. -/
def comp_df [DecidableEq β] (pop samp : List β) : List (β × ℚ × ℚ) :=
  let pv := (value_counts pop).map Prod.fst
  let sv := ((value_counts samp).map Prod.fst).filter (fun v => decide (v ∉ pv))
  (pv ++ sv).map (fun v => (v, propOf pop v, propOf samp v))

/-- Rounding to one decimal place, `Series.round(1)`: numpy round-half-to-even
applied at the first decimal. -/
def pct1 (q : ℚ) : ℚ :=
  (roundHalfEven (q * 10) : ℚ) / 10

/-- Distinct values of the auxiliary column — the columns the `pivot` call
creates, one per value of `aux` observed in the dataset. -/
def aux_vals [DecidableEq γ] (D : List α) (aux : α → γ) : List γ :=
  firstUniq (D.map aux)

/-- Cell `(g, v)` of the pivoted cross-tabulation
`df.groupby(strata)[aux].value_counts(normalize=True).mul(100).round(1) … .pivot(...)`:
the within-stratum percentage of records of stratum `g` carrying the auxiliary
value `v`, rounded to one decimal.  `groupby … value_counts` only lists
observed combinations, so `pivot` leaves `NaN` — here `none` — in the cell of
a combination never observed. -/
def cross [DecidableEq β] [DecidableEq γ] (D : List α) (f : α → β) (aux : α → γ)
    (g : β) (v : γ) : Option ℚ :=
  let sub := ((stratum D f g).map (fun p => aux p.2))
  if sub.count v = 0 then none
  else some (pct1 ((sub.count v : ℚ) / sub.length * 100))

/-- Embedding of the allocation table after the categorical-auxiliary merge
`alloc_df = alloc_df.merge(props, on=strata, how='left')`: each row of
`alloc_df` extended with the pivot row of its stratum, one `Option ℚ` cell per
auxiliary value (every stratum of the allocation is a value occurring in the
dataset, so the left join always finds its pivot row; unobserved combinations
keep the pivot's `NaN`, i.e. `none`). -/
def alloc_aux [DecidableEq β] [DecidableEq γ] (D : List α) (f : α → β) (aux : α → γ)
    (ntot : ℕ) : List (β × ℕ × ℤ × List (Option ℚ)) :=
  (alloc_df (D.map f) ntot).map
    (fun t => (t.1, t.2.1, t.2.2, (aux_vals D aux).map (cross D f aux t.1)))

/-- Embedding of
`load_data`: `sheets = pd.read_excel(path, sheet_name=None)` followed by
`pd.concat(sheets.values(), ignore_index=True)`, modelled after the parser has
produced the list of sheets.  The body has no failure branch: whatever the
sheets are — empty ones included — it returns the row-wise concatenation. -/
def load_data (sheets : List (List α)) : Except String (List α) :=
  Except.ok sheets.flatten

/-- Order relation of the allocation table: count-descending. -/
def descBySnd (p q : β × ℕ) : Prop := q.2 ≤ p.2

theorem mem_firstUniq [DecidableEq β] {m : List β} {v : β} :
    v ∈ firstUniq m ↔ v ∈ m := by
  induction m with
  | nil => simp [firstUniq]
  | cons a l ih =>
    simp only [firstUniq, List.mem_cons, List.mem_filter, decide_eq_true_eq]
    constructor
    · rintro (rfl | ⟨h1, _⟩)
      · exact Or.inl rfl
      · exact Or.inr (ih.mp h1)
    · rintro (rfl | h)
      · exact Or.inl rfl
      · by_cases hva : v = a
        · exact Or.inl hva
        · exact Or.inr ⟨ih.mpr h, hva⟩

theorem nodup_firstUniq [DecidableEq β] (m : List β) : (firstUniq m).Nodup := by
  induction m with
  | nil => simp [firstUniq]
  | cons a l ih =>
    simp only [firstUniq, List.nodup_cons]
    refine ⟨fun hmem => ?_, ih.filter _⟩
    have := (List.mem_filter.mp hmem).2
    simp at this

theorem firstUniq_ne_nil [DecidableEq β] {m : List β} (h : m ≠ []) :
    firstUniq m ≠ [] := by
  cases m with
  | nil => exact absurd rfl h
  | cons a l => simp [firstUniq]

theorem insertDesc_perm (p : β × ℕ) (l : List (β × ℕ)) :
    List.Perm (insertDesc p l) (p :: l) := by
  induction l with
  | nil => exact List.Perm.refl _
  | cons q l ih =>
    by_cases h : q.2 ≤ p.2
    · rw [insertDesc, if_pos h]
    · rw [insertDesc, if_neg h]
      exact (ih.cons q).trans (List.Perm.swap p q l)

theorem sortDesc_perm (l : List (β × ℕ)) : List.Perm (sortDesc l) l := by
  induction l with
  | nil => exact List.Perm.refl _
  | cons p l ih => exact (insertDesc_perm p (sortDesc l)).trans (ih.cons p)

theorem sorted_insertDesc {p : β × ℕ} {l : List (β × ℕ)}
    (hl : List.Sorted descBySnd l) :
    List.Sorted descBySnd (insertDesc p l) := by
  induction l with
  | nil => simp [insertDesc, List.Sorted]
  | cons q l ih =>
    have hq := List.sorted_cons.mp hl
    by_cases h : q.2 ≤ p.2
    · rw [insertDesc, if_pos h]
      refine List.sorted_cons.mpr ⟨?_, hl⟩
      intro b hb
      rcases List.mem_cons.mp hb with rfl | hb
      · exact h
      · exact le_trans (hq.1 b hb) h
    · rw [insertDesc, if_neg h]
      refine List.sorted_cons.mpr ⟨?_, ih hq.2⟩
      intro b hb
      rcases List.mem_cons.mp ((insertDesc_perm p l).subset hb) with rfl | hb
      · exact le_of_lt (lt_of_not_le h)
      · exact hq.1 b hb

theorem sorted_sortDesc (l : List (β × ℕ)) : List.Sorted descBySnd (sortDesc l) := by
  induction l with
  | nil => simp [sortDesc, List.Sorted]
  | cons p l ih => exact sorted_insertDesc ih

theorem value_counts_perm [DecidableEq β] (m : List β) :
    List.Perm (value_counts m) ((firstUniq m).map (fun v => (v, m.count v))) :=
  sortDesc_perm _

theorem value_counts_sorted [DecidableEq β] (m : List β) :
    List.Sorted descBySnd (value_counts m) :=
  sorted_sortDesc _

theorem value_counts_keys_perm [DecidableEq β] (m : List β) :
    List.Perm ((value_counts m).map Prod.fst) (firstUniq m) := by
  have h := (value_counts_perm m).map Prod.fst
  rwa [List.map_map, show (Prod.fst ∘ fun v => (v, m.count v)) = id from rfl,
    List.map_id] at h

theorem value_counts_keys_nodup [DecidableEq β] (m : List β) :
    ((value_counts m).map Prod.fst).Nodup :=
  (value_counts_keys_perm m).nodup_iff.mpr (nodup_firstUniq m)

theorem mem_value_counts [DecidableEq β] {m : List β} {p : β × ℕ} :
    p ∈ value_counts m ↔ p.1 ∈ m ∧ p.2 = m.count p.1 := by
  rw [(value_counts_perm m).mem_iff]
  constructor
  · intro h
    rcases List.mem_map.mp h with ⟨v, hv, hpv⟩
    rcases hpv.symm with rfl
    exact ⟨mem_firstUniq.mp hv, rfl⟩
  · rintro ⟨h1, h2⟩
    refine List.mem_map.mpr ⟨p.1, mem_firstUniq.mpr h1, ?_⟩
    exact Prod.ext rfl h2.symm

theorem mem_value_counts_keys [DecidableEq β] {m : List β} {v : β} :
    v ∈ (value_counts m).map Prod.fst ↔ v ∈ m := by
  rw [(value_counts_keys_perm m).mem_iff, mem_firstUniq]

theorem value_counts_ne_nil [DecidableEq β] {m : List β} (h : m ≠ []) :
    value_counts m ≠ [] := by
  intro hc
  have := (value_counts_keys_perm m).symm
  rw [hc] at this
  simp only [List.map_nil] at this
  exact firstUniq_ne_nil h (List.perm_nil.mp this)

theorem fdiv_eq_floor (a : ℤ) (b : ℕ) : Int.fdiv a b = ⌊(a : ℚ) / b⌋ := by
  rw [Int.fdiv_eq_ediv a (by positivity), Rat.floor_intCast_div_natCast]

theorem roundHalfEvenInt_eq (a : ℤ) (b : ℕ) (hb : b ≠ 0) :
    roundHalfEvenInt a b = roundHalfEven ((a : ℚ) / b) := by
  have hb0 : (0 : ℚ) < b := by positivity
  have hbz : (b : ℚ) ≠ 0 := ne_of_gt hb0
  set q : ℚ := (a : ℚ) / b with hq
  have hf : Int.fdiv a b = ⌊q⌋ := fdiv_eq_floor a b
  have hr : q - (⌊q⌋ : ℚ) = ((a - b * ⌊q⌋ : ℤ) : ℚ) / b := by
    rw [eq_div_iff hbz, sub_mul, hq, div_mul_cancel₀ _ hbz]
    push_cast
    ring
  have hlt : 2 * (a - b * Int.fdiv a b) < (b : ℤ) ↔ q - (⌊q⌋ : ℚ) < 1 / 2 := by
    rw [hf, hr, div_lt_div_iff₀ hb0 (by norm_num : (0:ℚ) < 2)]
    constructor
    · intro h
      have h3 : ((2 * (a - b * ⌊q⌋) : ℤ) : ℚ) < ((b : ℤ) : ℚ) := by exact_mod_cast h
      push_cast at h3 ⊢
      linarith
    · intro h
      have h3 : ((2 * (a - b * ⌊q⌋) : ℤ) : ℚ) < ((b : ℤ) : ℚ) := by
        push_cast at h ⊢
        linarith
      exact_mod_cast h3
  have hgt : (b : ℤ) < 2 * (a - b * Int.fdiv a b) ↔ 1 / 2 < q - (⌊q⌋ : ℚ) := by
    rw [hf, hr, div_lt_div_iff₀ (by norm_num : (0:ℚ) < 2) hb0]
    constructor
    · intro h
      have h3 : ((b : ℤ) : ℚ) < ((2 * (a - b * ⌊q⌋) : ℤ) : ℚ) := by exact_mod_cast h
      push_cast at h3 ⊢
      linarith
    · intro h
      have h3 : ((b : ℤ) : ℚ) < ((2 * (a - b * ⌊q⌋) : ℤ) : ℚ) := by
        push_cast at h ⊢
        linarith
      exact_mod_cast h3
  have heven : (Int.fdiv a b % 2 = 0) ↔ Even ⌊q⌋ := by
    rw [hf, Int.even_iff]
  rw [roundHalfEvenInt, roundHalfEven]
  by_cases h1 : 2 * (a - b * Int.fdiv a b) < (b : ℤ)
  · rw [if_pos h1, if_pos (hlt.mp h1), hf]
  · rw [if_neg h1, if_neg (fun hc => h1 (hlt.mpr hc))]
    by_cases h2 : (b : ℤ) < 2 * (a - b * Int.fdiv a b)
    · rw [if_pos h2, if_pos (hgt.mp h2), hf]
    · rw [if_neg h2, if_neg (fun hc => h2 (hgt.mpr hc))]
      by_cases h3 : Int.fdiv a b % 2 = 0
      · rw [if_pos h3, if_pos (heven.mp h3), hf]
      · rw [if_neg h3, if_neg (fun hc => h3 (heven.mpr hc)), hf]

theorem share_eq_div (Nh total ntot : ℕ) :
    share Nh total ntot = ((Nh * ntot : ℤ) : ℚ) / total := by
  rw [share]
  push_cast
  ring

theorem roundHalfEvenInt_eq_share (Nh total ntot : ℕ) (htotal : total ≠ 0) :
    roundHalfEvenInt ((Nh : ℤ) * ntot) total = roundHalfEven (share Nh total ntot) := by
  rw [roundHalfEvenInt_eq _ _ htotal, share_eq_div]

theorem roundHalfEven_int_add_half (k : ℤ) :
    roundHalfEven ((k : ℚ) + 1 / 2) = if Even k then k else k + 1 := by
  have hhalf0 : ⌊(1 / 2 : ℚ)⌋ = 0 := by
    rw [Int.floor_eq_zero_iff]
    norm_num [Set.mem_Ico]
  have hfloor : ⌊(k : ℚ) + 1 / 2⌋ = k := by
    rw [Int.floor_int_add, hhalf0, add_zero]
  have hsub : (k : ℚ) + 1 / 2 - (⌊(k : ℚ) + 1 / 2⌋ : ℚ) = 1 / 2 := by
    rw [hfloor]
    ring
  rw [roundHalfEven, hsub, if_neg (lt_irrefl _), if_neg (lt_irrefl _), hfloor]

theorem le_listMax : ∀ {l : List ℤ} {x : ℤ}, x ∈ l → x ≤ listMax l
  | [], x, hx => absurd hx (List.not_mem_nil x)
  | [a], x, hx => by
    rcases List.mem_singleton.mp hx with rfl
    exact le_of_eq rfl
  | a :: b :: l, x, hx => by
    rcases List.mem_cons.mp hx with rfl | hx
    · exact le_max_left _ _
    · exact le_trans (le_listMax hx) (le_max_right _ _)

theorem listMax_cons {a : ℤ} {l : List ℤ} (h : l ≠ []) :
    listMax (a :: l) = max a (listMax l) := by
  cases l with
  | nil => exact absurd rfl h
  | cons b l => rfl

theorem firstMaxIdx_lt_length : ∀ {l : List ℤ}, l ≠ [] → firstMaxIdx l < l.length
  | [], h => absurd rfl h
  | a :: l, _ => by
    rw [firstMaxIdx]
    by_cases hc : listMax (a :: l) ≤ a
    · rw [if_pos hc]
      simp
    · rw [if_neg hc]
      have hl : l ≠ [] := by
        rintro rfl
        exact hc (le_of_eq rfl)
      have := firstMaxIdx_lt_length hl
      simpa using Nat.succ_lt_succ this

theorem listMax_cons_of_not_le {a : ℤ} {l : List ℤ}
    (hc : ¬ listMax (a :: l) ≤ a) : listMax (a :: l) = listMax l := by
  have hl : l ≠ [] := by
    rintro rfl
    exact hc (le_of_eq rfl)
  rw [listMax_cons hl] at hc ⊢
  rcases max_cases a (listMax l) with ⟨h1, _⟩ | ⟨h1, _⟩
  · exact absurd (le_of_eq h1) hc
  · exact h1

theorem getElem_firstMaxIdx :
    ∀ {l : List ℤ} (hlt : firstMaxIdx l < l.length), l[firstMaxIdx l] = listMax l
  | [], hlt => by simp at hlt
  | a :: l, hlt => by
    by_cases hc : listMax (a :: l) ≤ a
    · simp only [firstMaxIdx, if_pos hc]
      rw [List.getElem_cons_zero]
      exact (le_antisymm hc (le_listMax (List.mem_cons_self a l))).symm
    · have hmax := listMax_cons_of_not_le hc
      simp only [firstMaxIdx, if_neg hc] at hlt ⊢
      rw [List.getElem_cons_succ]
      exact (getElem_firstMaxIdx (Nat.lt_of_succ_lt_succ (by simpa using hlt))).trans
        hmax.symm

theorem getElem_lt_of_lt_firstMaxIdx :
    ∀ {l : List ℤ} {i : ℕ} (hi : i < l.length), i < firstMaxIdx l → l[i] < listMax l
  | [], i, hi, _ => by simp at hi
  | a :: l, i, hi, hlt => by
    by_cases hc : listMax (a :: l) ≤ a
    · rw [firstMaxIdx, if_pos hc] at hlt
      exact absurd hlt (Nat.not_lt_zero i)
    · have hmax := listMax_cons_of_not_le hc
      rw [firstMaxIdx, if_neg hc] at hlt
      cases i with
      | zero =>
        rw [List.getElem_cons_zero]
        exact lt_of_not_le hc
      | succ i =>
        rw [List.getElem_cons_succ, hmax]
        exact getElem_lt_of_lt_firstMaxIdx (Nat.lt_of_succ_lt_succ hi)
          (Nat.lt_of_succ_lt_succ hlt)

theorem addAt_length (d : ℤ) :
    ∀ (l : List (β × ℤ)) (j : ℕ), (addAt d l j).length = l.length
  | [], _ => rfl
  | _ :: l, 0 => rfl
  | p :: l, j + 1 => by
    simp only [addAt, List.length_cons, addAt_length d l j]

theorem addAt_map_fst (d : ℤ) :
    ∀ (l : List (β × ℤ)) (j : ℕ), (addAt d l j).map Prod.fst = l.map Prod.fst
  | [], _ => rfl
  | _ :: l, 0 => rfl
  | p :: l, j + 1 => by
    simp only [addAt, List.map_cons, addAt_map_fst d l j]

theorem addAt_sum (d : ℤ) :
    ∀ (l : List (β × ℤ)) (j : ℕ), j < l.length →
      ((addAt d l j).map Prod.snd).sum = (l.map Prod.snd).sum + d
  | [], j, hj => by simp at hj
  | p :: l, 0, _ => by
    simp only [addAt, List.map_cons, List.sum_cons]
    ring
  | p :: l, j + 1, hj => by
    simp only [addAt, List.map_cons, List.sum_cons,
      addAt_sum d l j (Nat.lt_of_succ_lt_succ hj)]
    ring

theorem addAt_getElem_self (d : ℤ) :
    ∀ (l : List (β × ℤ)) (j : ℕ) (hj : j < l.length)
      (hj2 : j < (addAt d l j).length), (addAt d l j)[j] = (l[j].1, l[j].2 + d)
  | [], j, hj, _ => by simp at hj
  | p :: l, 0, _, _ => rfl
  | p :: l, j + 1, hj, hj2 => by
    simp only [addAt, List.getElem_cons_succ]
    exact addAt_getElem_self d l j (Nat.lt_of_succ_lt_succ hj)
      (by simpa [addAt_length] using Nat.lt_of_succ_lt_succ hj)

theorem addAt_getElem_ne (d : ℤ) :
    ∀ (l : List (β × ℤ)) (j i : ℕ) (hi : i < l.length)
      (hi2 : i < (addAt d l j).length), i ≠ j → (addAt d l j)[i] = l[i]
  | [], _, i, hi, _, _ => by simp at hi
  | p :: l, 0, 0, _, _, hne => absurd rfl hne
  | p :: l, 0, i + 1, hi, hi2, _ => by
    simp only [addAt, List.getElem_cons_succ]
  | p :: l, j + 1, 0, _, _, _ => rfl
  | p :: l, j + 1, i + 1, hi, hi2, hne => by
    simp only [addAt, List.getElem_cons_succ]
    exact addAt_getElem_ne d l j i (Nat.lt_of_succ_lt_succ hi)
      (by simpa [addAt_length] using Nat.lt_of_succ_lt_succ hi)
      (fun hc => hne (by omega))

theorem ne_nil_of_bounds {m : List β} {ntot : ℕ} (h1 : 1 ≤ ntot) (h2 : ntot ≤ m.length) :
    m ≠ [] := by
  rintro rfl
  simp only [List.length_nil] at h2
  omega

theorem raw_alloc_length [DecidableEq β] (m : List β) (ntot : ℕ) :
    (raw_alloc m ntot).length = (value_counts m).length :=
  List.length_map _ _

theorem raw_alloc_ne_nil [DecidableEq β] {m : List β} {ntot : ℕ} (h : m ≠ []) :
    raw_alloc m ntot ≠ [] := by
  intro hc
  exact value_counts_ne_nil h (List.map_eq_nil_iff.mp hc)

theorem alloc_eq [DecidableEq β] (m : List β) (ntot : ℕ) :
    alloc m ntot =
      if ((ntot : ℤ) - ((raw_alloc m ntot).map Prod.snd).sum) = 0 then raw_alloc m ntot
      else addAt ((ntot : ℤ) - ((raw_alloc m ntot).map Prod.snd).sum) (raw_alloc m ntot)
        (firstMaxIdx ((raw_alloc m ntot).map Prod.snd)) := rfl

theorem alloc_length [DecidableEq β] (m : List β) (ntot : ℕ) :
    (alloc m ntot).length = (raw_alloc m ntot).length := by
  rw [alloc_eq]
  by_cases hd : ((ntot : ℤ) - ((raw_alloc m ntot).map Prod.snd).sum) = 0
  · rw [if_pos hd]
  · rw [if_neg hd, addAt_length]

theorem alloc_map_fst [DecidableEq β] (m : List β) (ntot : ℕ) :
    (alloc m ntot).map Prod.fst = (raw_alloc m ntot).map Prod.fst := by
  rw [alloc_eq]
  by_cases hd : ((ntot : ℤ) - ((raw_alloc m ntot).map Prod.snd).sum) = 0
  · rw [if_pos hd]
  · rw [if_neg hd, addAt_map_fst]

theorem firstMaxIdx_lt_raw_length [DecidableEq β] {m : List β} {ntot : ℕ} (hm : m ≠ []) :
    firstMaxIdx ((raw_alloc m ntot).map Prod.snd) < (raw_alloc m ntot).length := by
  have hne : (raw_alloc m ntot).map Prod.snd ≠ [] := by
    intro hc
    exact raw_alloc_ne_nil hm (List.map_eq_nil_iff.mp hc)
  have := firstMaxIdx_lt_length hne
  simpa using this

/-- C1: for every strata column and every requested total `n_total` with
`1 ≤ n_total ≤ total_units`, the reconciled allocation satisfies
`sum(n_h) = n_total` exactly. -/
theorem C1_alloc_sum_eq_ntot [DecidableEq β] (m : List β) (ntot : ℕ)
    (h1 : 1 ≤ ntot) (h2 : ntot ≤ m.length) :
    ((alloc m ntot).map Prod.snd).sum = (ntot : ℤ) := by
  have hm : m ≠ [] := ne_nil_of_bounds h1 h2
  rw [alloc_eq]
  by_cases hd : ((ntot : ℤ) - ((raw_alloc m ntot).map Prod.snd).sum) = 0
  · rw [if_pos hd]
    omega
  · rw [if_neg hd, addAt_sum _ _ _ (firstMaxIdx_lt_raw_length hm)]
    omega

/-- Witness for C1: a concrete column of three records in two strata with
`n_total = 2` (a case where the raw rounding needs reconciliation). -/
theorem C1_witness : ((alloc ([0, 0, 1] : List ℕ) 2).map Prod.snd).sum = (2 : ℤ) :=
  C1_alloc_sum_eq_ntot [0, 0, 1] 2 (by decide) (by decide)

theorem alloc_reconcile [DecidableEq β] (m : List β) (ntot : ℕ) (hm : m ≠ []) :
    ∃ j : Fin (raw_alloc m ntot).length,
      j.1 = firstMaxIdx ((raw_alloc m ntot).map Prod.snd) ∧
      (∀ i : Fin (raw_alloc m ntot).length,
        ((raw_alloc m ntot).get i).2 ≤ ((raw_alloc m ntot).get j).2) ∧
      (∀ i : Fin (raw_alloc m ntot).length, i.1 < j.1 →
        ((raw_alloc m ntot).get i).2 < ((raw_alloc m ntot).get j).2) ∧
      (alloc m ntot).length = (raw_alloc m ntot).length ∧
      ∀ (i : ℕ) (ha : i < (alloc m ntot).length) (hr : i < (raw_alloc m ntot).length),
        (alloc m ntot).get ⟨i, ha⟩ =
          if i = j.1 then
            (((raw_alloc m ntot).get j).1,
              ((raw_alloc m ntot).get j).2 +
                ((ntot : ℤ) - ((raw_alloc m ntot).map Prod.snd).sum))
          else (raw_alloc m ntot).get ⟨i, hr⟩ := by
  have hjlt : firstMaxIdx ((raw_alloc m ntot).map Prod.snd) < (raw_alloc m ntot).length :=
    firstMaxIdx_lt_raw_length hm
  have hjlt2 : firstMaxIdx ((raw_alloc m ntot).map Prod.snd) <
      ((raw_alloc m ntot).map Prod.snd).length := by
    simpa using hjlt
  have hmaxval : ((raw_alloc m ntot).get ⟨firstMaxIdx ((raw_alloc m ntot).map Prod.snd), hjlt⟩).2 =
      listMax ((raw_alloc m ntot).map Prod.snd) := by
    rw [List.get_eq_getElem]
    have h := getElem_firstMaxIdx hjlt2
    rw [List.getElem_map] at h
    exact h
  refine ⟨⟨firstMaxIdx ((raw_alloc m ntot).map Prod.snd), hjlt⟩, rfl, ?_, ?_,
    alloc_length m ntot, ?_⟩
  · intro i
    rw [hmaxval]
    apply le_listMax
    rw [List.get_eq_getElem]
    exact List.mem_map_of_mem Prod.snd (List.getElem_mem i.2)
  · intro i hlt
    rw [hmaxval, List.get_eq_getElem]
    have h := getElem_lt_of_lt_firstMaxIdx (by simp : i.1 <
      ((raw_alloc m ntot).map Prod.snd).length) hlt
    rw [List.getElem_map] at h
    exact h
  · intro i ha hr
    rw [List.get_eq_getElem, List.get_eq_getElem, List.get_eq_getElem]
    by_cases hd : ((ntot : ℤ) - ((raw_alloc m ntot).map Prod.snd).sum) = 0
    · have halloc : alloc m ntot = raw_alloc m ntot := by
        rw [alloc_eq, if_pos hd]
      rw [List.getElem_of_eq halloc ha]
      by_cases hij : i = firstMaxIdx ((raw_alloc m ntot).map Prod.snd)
      · rw [if_pos hij, hd, add_zero]
        subst hij
        exact Prod.mk.eta.symm
      · rw [if_neg hij]
    · have halloc : alloc m ntot =
          addAt ((ntot : ℤ) - ((raw_alloc m ntot).map Prod.snd).sum) (raw_alloc m ntot)
            (firstMaxIdx ((raw_alloc m ntot).map Prod.snd)) := by
        rw [alloc_eq, if_neg hd]
      rw [List.getElem_of_eq halloc ha]
      by_cases hij : i = firstMaxIdx ((raw_alloc m ntot).map Prod.snd)
      · rw [if_pos hij]
        subst hij
        exact addAt_getElem_self _ _ _ hjlt _
      · rw [if_neg hij]
        exact addAt_getElem_ne _ _ _ _ hr _ hij

/-- C2: the reconciliation computes raw allocations by rounding each share,
adds the entire difference `n_total - sum(n_h_raw)` to the single stratum
holding the first occurrence of the largest raw value (every strictly earlier
stratum has a strictly smaller raw value), and leaves every other stratum at
its raw value. -/
theorem C2_reconciliation_rule [DecidableEq β] (m : List β) (ntot : ℕ) (hm : m ≠ []) :
    ∃ j : Fin (raw_alloc m ntot).length,
      j.1 = firstMaxIdx ((raw_alloc m ntot).map Prod.snd) ∧
      (∀ i : Fin (raw_alloc m ntot).length,
        ((raw_alloc m ntot).get i).2 ≤ ((raw_alloc m ntot).get j).2) ∧
      (∀ i : Fin (raw_alloc m ntot).length, i.1 < j.1 →
        ((raw_alloc m ntot).get i).2 < ((raw_alloc m ntot).get j).2) ∧
      (alloc m ntot).length = (raw_alloc m ntot).length ∧
      ∀ (i : ℕ) (ha : i < (alloc m ntot).length) (hr : i < (raw_alloc m ntot).length),
        (alloc m ntot).get ⟨i, ha⟩ =
          if i = j.1 then
            (((raw_alloc m ntot).get j).1,
              ((raw_alloc m ntot).get j).2 +
                ((ntot : ℤ) - ((raw_alloc m ntot).map Prod.snd).sum))
          else (raw_alloc m ntot).get ⟨i, hr⟩ :=
  alloc_reconcile m ntot hm

/-- Witness for C2 at a concrete two-strata column. -/
theorem C2_witness :
    ∃ j : Fin (raw_alloc ([0, 0, 1] : List ℕ) 2).length,
      j.1 = firstMaxIdx ((raw_alloc ([0, 0, 1] : List ℕ) 2).map Prod.snd) ∧
      (∀ i : Fin (raw_alloc ([0, 0, 1] : List ℕ) 2).length,
        ((raw_alloc ([0, 0, 1] : List ℕ) 2).get i).2 ≤
          ((raw_alloc ([0, 0, 1] : List ℕ) 2).get j).2) ∧
      (∀ i : Fin (raw_alloc ([0, 0, 1] : List ℕ) 2).length, i.1 < j.1 →
        ((raw_alloc ([0, 0, 1] : List ℕ) 2).get i).2 <
          ((raw_alloc ([0, 0, 1] : List ℕ) 2).get j).2) ∧
      (alloc ([0, 0, 1] : List ℕ) 2).length = (raw_alloc ([0, 0, 1] : List ℕ) 2).length ∧
      ∀ (i : ℕ) (ha : i < (alloc ([0, 0, 1] : List ℕ) 2).length)
        (hr : i < (raw_alloc ([0, 0, 1] : List ℕ) 2).length),
        (alloc ([0, 0, 1] : List ℕ) 2).get ⟨i, ha⟩ =
          if i = j.1 then
            (((raw_alloc ([0, 0, 1] : List ℕ) 2).get j).1,
              ((raw_alloc ([0, 0, 1] : List ℕ) 2).get j).2 +
                ((2 : ℤ) - ((raw_alloc ([0, 0, 1] : List ℕ) 2).map Prod.snd).sum))
          else (raw_alloc ([0, 0, 1] : List ℕ) 2).get ⟨i, hr⟩ :=
  C2_reconciliation_rule [0, 0, 1] 2 (by decide)

/-- C3 (code bug, evaluated at the failing input): a column of 20 records in
five strata of 4 records each with `n_total = 3` makes every raw share
`4/20*3 = 0.6` round to 1; the diff `3 - 5 = -2` is dumped on the first
stratum, whose `n_h` becomes `-1 < 0`.  The allocation is returned without
capping and without any error, and the subsequent stratified draw then fails
(pandas raises a `ValueError`, rendered as `none`) — not the
`DegenerateAllocationError` the specification promises.  The analogous upper
violation `n_h = 4 > N_h = 2` is exhibited on a second column. -/
theorem C3_out_of_bounds_eval :
    alloc ([0, 0, 0, 0, 1, 1, 1, 1, 2, 2, 2, 2, 3, 3, 3, 3, 4, 4, 4, 4] : List ℕ) 3 =
      [(0, -1), (1, 1), (2, 1), (3, 1), (4, 1)] ∧
    ([0, 0, 0, 0, 1, 1, 1, 1, 2, 2, 2, 2, 3, 3, 3, 3, 4, 4, 4, 4] : List ℕ).count 0 = 4 ∧
    sampled ([0, 0, 0, 0, 1, 1, 1, 1, 2, 2, 2, 2, 3, 3, 3, 3, 4, 4, 4, 4] : List ℕ) id
      (fun _ => [0, 1, 2, 3])
      (alloc ([0, 0, 0, 0, 1, 1, 1, 1, 2, 2, 2, 2, 3, 3, 3, 3, 4, 4, 4, 4] : List ℕ) 3) =
      none ∧
    alloc ([0, 0, 1, 2, 3, 4, 5, 6, 7, 8] : List ℕ) 4 =
      [(0, 4), (1, 0), (2, 0), (3, 0), (4, 0), (5, 0), (6, 0), (7, 0), (8, 0)] ∧
    ([0, 0, 1, 2, 3, 4, 5, 6, 7, 8] : List ℕ).count 0 = 2 := by
  refine ⟨by decide, by decide, by decide, by decide, by decide⟩

/-- C9: the raw allocation rounds with round-half-to-even.  For any stratum
`(v, N_h)` of the counts table whose exact proportional share
`N_h / total_units * n_total` is exactly halfway between two consecutive
integers `k` and `k + 1`, the raw value `n_h_raw` — the entry `raw_alloc`
computes for that stratum — is the even one of the two. -/
theorem C9_round_half_to_even [DecidableEq β] {m : List β} {ntot Nh : ℕ} {v : β} {k : ℤ}
    (hmem : (v, Nh) ∈ value_counts m)
    (hhalf : share Nh m.length ntot = (k : ℚ) + 1 / 2) :
    (v, roundHalfEvenInt ((Nh : ℤ) * ntot) m.length) ∈ raw_alloc m ntot ∧
    roundHalfEvenInt ((Nh : ℤ) * ntot) m.length = (if Even k then k else k + 1) ∧
    Even (roundHalfEvenInt ((Nh : ℤ) * ntot) m.length) ∧
    (roundHalfEvenInt ((Nh : ℤ) * ntot) m.length = k ∨
      roundHalfEvenInt ((Nh : ℤ) * ntot) m.length = k + 1) := by
  have hv : v ∈ m := (mem_value_counts.mp hmem).1
  have hm : m ≠ [] := by
    rintro rfl
    exact List.not_mem_nil v hv
  have htotal : m.length ≠ 0 := by
    intro hc
    exact hm (List.eq_nil_of_length_eq_zero hc)
  have h1 : roundHalfEvenInt ((Nh : ℤ) * ntot) m.length = if Even k then k else k + 1 := by
    rw [roundHalfEvenInt_eq_share _ _ _ htotal, hhalf, roundHalfEven_int_add_half]
  refine ⟨?_, h1, ?_, ?_⟩
  · have := List.mem_map_of_mem
      (fun p : β × ℕ => (p.1, roundHalfEvenInt ((p.2 : ℤ) * ntot) m.length)) hmem
    exact this
  · rw [h1]
    by_cases he : Even k
    · rw [if_pos he]
      exact he
    · rw [if_neg he]
      exact Int.even_add_one.mpr he
  · rw [h1]
    by_cases he : Even k
    · rw [if_pos he]
      exact Or.inl rfl
    · rw [if_neg he]
      exact Or.inr rfl

/-- Witness for C9: six records, a stratum of five of them, `n_total = 3`:
the share is `5/6*3 = 5/2 = 2 + 1/2`, and the raw allocation is the even
neighbour 2. -/
theorem C9_witness :
    (0, roundHalfEvenInt ((5 : ℤ) * 3) ([0, 0, 0, 0, 0, 1] : List ℕ).length) ∈
      raw_alloc ([0, 0, 0, 0, 0, 1] : List ℕ) 3 ∧
    roundHalfEvenInt ((5 : ℤ) * 3) ([0, 0, 0, 0, 0, 1] : List ℕ).length =
      (if Even (2 : ℤ) then (2 : ℤ) else 2 + 1) ∧
    Even (roundHalfEvenInt ((5 : ℤ) * 3) ([0, 0, 0, 0, 0, 1] : List ℕ).length) ∧
    (roundHalfEvenInt ((5 : ℤ) * 3) ([0, 0, 0, 0, 0, 1] : List ℕ).length = 2 ∨
      roundHalfEvenInt ((5 : ℤ) * 3) ([0, 0, 0, 0, 0, 1] : List ℕ).length = 2 + 1) :=
  @C9_round_half_to_even ℕ _ [0, 0, 0, 0, 0, 1] 3 5 0 2
    (by decide) (by norm_num [share])

theorem subperm_map (f : α → β) {l1 l2 : List α} (h : List.Subperm l1 l2) :
    List.Subperm (l1.map f) (l2.map f) := by
  rcases h with ⟨u, hperm, hsub⟩
  exact ⟨u.map f, hperm.map f, hsub.map f⟩

theorem subperm_nodup {l1 l2 : List α} (h : List.Subperm l1 l2) (h2 : l2.Nodup) :
    l1.Nodup := by
  rcases h with ⟨u, hperm, hsub⟩
  exact hperm.nodup_iff.mp (List.Nodup.sublist hsub h2)

theorem filterMap_getElem_range :
    ∀ (L : List α), (List.range L.length).filterMap (fun i => L[i]?) = L
  | [] => rfl
  | a :: L => by
    rw [List.length_cons, List.range_succ_eq_map, List.filterMap_cons]
    simp only [List.getElem?_cons_zero]
    rw [List.filterMap_map]
    have hcomp : ((fun i => (a :: L)[i]?) ∘ Nat.succ) = (fun i => L[i]?) := by
      funext i
      simp [List.getElem?_cons_succ]
    rw [hcomp, filterMap_getElem_range L]

theorem selection_subperm (L : List α) {perm : List ℕ}
    (hperm : List.Perm perm (List.range L.length)) (n : ℕ) :
    List.Subperm ((perm.take n).filterMap (fun i => L[i]?)) L := by
  have h1 : List.Sublist ((perm.take n).filterMap (fun i => L[i]?))
      (perm.filterMap (fun i => L[i]?)) :=
    (List.take_sublist n perm).filterMap _
  have h2 : List.Perm (perm.filterMap (fun i => L[i]?)) L := by
    have := hperm.filterMap (fun i => L[i]?)
    rwa [filterMap_getElem_range L] at this
  exact h1.subperm.trans h2.subperm

theorem filterMap_getElem_length :
    ∀ (idxs : List ℕ) (L : List α), (∀ i ∈ idxs, i < L.length) →
      (idxs.filterMap (fun i => L[i]?)).length = idxs.length
  | [], _, _ => rfl
  | i :: idxs, L, h => by
    have hi : i < L.length := h i (List.mem_cons_self _ _)
    simp only [List.filterMap_cons, List.getElem?_eq_getElem hi, List.length_cons,
      filterMap_getElem_length idxs L (fun j hj => h j (List.mem_cons_of_mem _ hj))]

theorem filterMap_getElem_mem {idxs : List ℕ} {L : List α} {q : α}
    (hq : q ∈ idxs.filterMap (fun i => L[i]?)) : q ∈ L := by
  rcases List.mem_filterMap.mp hq with ⟨i, _, hget⟩
  exact List.getElem?_mem hget

theorem mem_lt_of_perm_range {perm : List ℕ} {N : ℕ}
    (hperm : List.Perm perm (List.range N)) {n : ℕ} :
    ∀ i ∈ perm.take n, i < N := by
  intro i hi
  have h1 : i ∈ perm := (List.take_sublist n perm).subset hi
  have h2 : i ∈ List.range N := hperm.subset h1
  exact List.mem_range.mp h2

theorem sample_eq_enum_selection (D : List α) (perm : List ℕ) (n : ℕ) :
    sample D perm n = (perm.take n).filterMap (fun i => (D.enum)[i]?) := by
  rw [sample]
  have hfun : (fun i : ℕ => (D[i]?).map (fun r => (i, r))) =
      (fun i : ℕ => ((D.enum)[i]? : Option (ℕ × α))) := by
    funext i
    rw [List.getElem?_enum]
  rw [hfun]

/-- C4: an SRS draw of size `n` with `1 ≤ n ≤ len(D)` returns exactly `n`
records, no two of which share a record identity (original row position), and
the drawn records form a sub-multiset of the dataset's records. -/
theorem C4_srs_draw (D : List α) (perm : List ℕ) (n : ℕ)
    (hperm : List.Perm perm (List.range D.length))
    (h1 : 1 ≤ n) (h2 : n ≤ D.length) :
    (sample D perm n).length = n ∧
    ((sample D perm n).map Prod.fst).Nodup ∧
    (((sample D perm n).map Prod.snd : List α) : Multiset α) ≤ (D : Multiset α) := by
  have hperm2 : List.Perm perm (List.range D.enum.length) := by
    rwa [List.enum_length]
  have hsub : List.Subperm (sample D perm n) D.enum := by
    rw [sample_eq_enum_selection]
    exact selection_subperm D.enum hperm2 n
  refine ⟨?_, ?_, ?_⟩
  · rw [sample_eq_enum_selection]
    rw [filterMap_getElem_length _ _ (by
      intro i hi
      rw [List.enum_length]
      exact mem_lt_of_perm_range hperm i hi)]
    rw [List.length_take, hperm.length_eq, List.length_range]
    exact Nat.min_eq_left h2
  · have hfst : List.Subperm ((sample D perm n).map Prod.fst) (D.enum.map Prod.fst) :=
      subperm_map Prod.fst hsub
    rw [List.enum_map_fst] at hfst
    exact subperm_nodup hfst (List.nodup_range _)
  · have hsnd : List.Subperm ((sample D perm n).map Prod.snd) (D.enum.map Prod.snd) :=
      subperm_map Prod.snd hsub
    rw [List.enum_map_snd] at hsnd
    exact Multiset.coe_le.mpr hsnd

/-- Witness for C4: drawing 2 of 3 records under a concrete permutation. -/
theorem C4_witness :
    (sample ([10, 20, 30] : List ℕ) [2, 0, 1] 2).length = 2 ∧
    ((sample ([10, 20, 30] : List ℕ) [2, 0, 1] 2).map Prod.fst).Nodup ∧
    (((sample ([10, 20, 30] : List ℕ) [2, 0, 1] 2).map Prod.snd : List ℕ) : Multiset ℕ) ≤
      (([10, 20, 30] : List ℕ) : Multiset ℕ) :=
  C4_srs_draw [10, 20, 30] [2, 0, 1] 2 (by decide) (by decide) (by decide)

/-- C8 (counterexample): a parsed source consisting of one sheet with zero
records is returned as the empty dataset `ok []`; `load_data` does not fail,
so no `EmptyDatasetError` is raised. -/
theorem C8_counterexample :
    load_data ([[]] : List (List ℕ)) = Except.ok ([] : List ℕ) := rfl

/-- C8 (amended): `load_data` concatenates the sheets row-wise and always
succeeds — a source with zero records yields the empty dataset without any
error; the only errors a load can surface are the underlying parser's own. -/
theorem C8_load_concatenates (sheets : List (List α)) :
    ∃ frame : List α, load_data sheets = Except.ok frame ∧
      frame.length = (sheets.map List.length).sum ∧
      (∀ r : α, r ∈ frame ↔ ∃ s ∈ sheets, r ∈ s) ∧
      frame = sheets.flatten :=
  ⟨sheets.flatten, rfl, List.length_flatten sheets,
    fun _ => List.mem_flatten, rfl⟩

/-- Witness for C8's amended statement at a concrete two-sheet source. -/
theorem C8_witness :
    ∃ frame : List ℕ, load_data [[1], [2, 3]] = Except.ok frame ∧
      frame.length = (([[1], [2, 3]] : List (List ℕ)).map List.length).sum ∧
      (∀ r : ℕ, r ∈ frame ↔ ∃ s ∈ ([[1], [2, 3]] : List (List ℕ)), r ∈ s) ∧
      frame = ([[1], [2, 3]] : List (List ℕ)).flatten :=
  C8_load_concatenates [[1], [2, 3]]

theorem sum_map_ite_count [DecidableEq β] (x : β) (u : List β) :
    (u.map (fun v => if x = v then (1 : ℕ) else 0)).sum = u.count x := by
  induction u with
  | nil => rfl
  | cons a u ih =>
    simp only [List.map_cons, List.sum_cons, ih, List.count_cons, beq_iff_eq]
    by_cases h : a = x
    · rw [if_pos h.symm, if_pos h]
      omega
    · rw [if_neg (fun hc => h hc.symm), if_neg h]
      omega

theorem sum_map_addf (u : List β) (f g : β → ℕ) :
    (u.map (fun v => f v + g v)).sum = (u.map f).sum + (u.map g).sum := by
  induction u with
  | nil => rfl
  | cons a u ihu =>
    simp only [List.map_cons, List.sum_cons, ihu]
    omega

theorem sum_counts_eq_length [DecidableEq β] (u : List β) :
    ∀ (m : List β), u.Nodup → (∀ v ∈ m, v ∈ u) →
      (u.map (fun v => m.count v)).sum = m.length
  | [], _, _ => by simp
  | x :: m, hnodup, hsub => by
    have hx : x ∈ u := hsub x (List.mem_cons_self _ _)
    have hmap : u.map (fun v => (x :: m).count v) =
        u.map (fun v => m.count v + if x = v then 1 else 0) := by
      apply List.map_congr_left
      intro v _
      simp only [List.count_cons, beq_iff_eq]
    rw [hmap, sum_map_addf u (fun v => m.count v) (fun v => if x = v then 1 else 0),
      sum_map_ite_count x u, List.count_eq_one_of_mem hnodup hx,
      sum_counts_eq_length u m hnodup (fun v hv => hsub v (List.mem_cons_of_mem _ hv))]
    simp [List.length_cons]

theorem sum_map_div (u : List β) (f : β → ℕ) (c : ℚ) :
    (u.map (fun v => (f v : ℚ) / c)).sum = ((u.map f).sum : ℚ) / c := by
  induction u with
  | nil => simp
  | cons a u ih =>
    simp only [List.map_cons, List.sum_cons, ih]
    push_cast
    rw [add_div]

theorem sum_props_eq_one [DecidableEq β] {u : List β} {m : List β} (hu : u.Nodup)
    (hsub : ∀ v ∈ m, v ∈ u) (hm : m ≠ []) :
    (u.map (fun v => propOf m v)).sum = 1 := by
  have hlen : (m.length : ℚ) ≠ 0 :=
    Nat.cast_ne_zero.mpr (fun hc => hm (List.eq_nil_of_length_eq_zero hc))
  simp only [propOf]
  rw [sum_map_div u (fun v => m.count v) m.length,
    sum_counts_eq_length u m hu hsub]
  exact div_self hlen

theorem comp_df_vals_nodup [DecidableEq β] (pop samp : List β) :
    (((value_counts pop).map Prod.fst) ++
      (((value_counts samp).map Prod.fst).filter
        (fun v => decide (v ∉ (value_counts pop).map Prod.fst)))).Nodup := by
  rw [List.nodup_append]
  refine ⟨value_counts_keys_nodup pop, (value_counts_keys_nodup samp).filter _, ?_⟩
  intro v hv hv2
  have := (List.mem_filter.mp hv2).2
  simp only [decide_eq_true_eq] at this
  exact this hv

theorem comp_df_vals_complete [DecidableEq β] (pop samp : List β) :
    (∀ v ∈ pop, v ∈ ((value_counts pop).map Prod.fst) ++
      (((value_counts samp).map Prod.fst).filter
        (fun v => decide (v ∉ (value_counts pop).map Prod.fst)))) ∧
    (∀ v ∈ samp, v ∈ ((value_counts pop).map Prod.fst) ++
      (((value_counts samp).map Prod.fst).filter
        (fun v => decide (v ∉ (value_counts pop).map Prod.fst)))) := by
  constructor
  · intro v hv
    exact List.mem_append_left _ (mem_value_counts_keys.mpr hv)
  · intro v hv
    by_cases hp : v ∈ (value_counts pop).map Prod.fst
    · exact List.mem_append_left _ hp
    · refine List.mem_append_right _ (List.mem_filter.mpr ?_)
      exact ⟨mem_value_counts_keys.mpr hv, by simpa using hp⟩

/-- C6: in every comparison table, the population-side proportions over all
listed values sum to 1 — that is, the percentages sum to 100% — and so do the
sample-side proportions. -/
theorem C6_proportions_sum [DecidableEq β] (pop samp : List β)
    (hpop : pop ≠ []) (hsamp : samp ≠ []) :
    ((comp_df pop samp).map (fun r => r.2.1)).sum = 1 ∧
    ((comp_df pop samp).map (fun r => r.2.2)).sum = 1 := by
  have hnodup := comp_df_vals_nodup pop samp
  have hcomplete := comp_df_vals_complete pop samp
  constructor
  · show ((((value_counts pop).map Prod.fst ++
      ((value_counts samp).map Prod.fst).filter
        (fun v => decide (v ∉ (value_counts pop).map Prod.fst))).map
          (fun v => (v, propOf pop v, propOf samp v))).map (fun r => r.2.1)).sum = 1
    rw [List.map_map]
    exact sum_props_eq_one hnodup hcomplete.1 hpop
  · show ((((value_counts pop).map Prod.fst ++
      ((value_counts samp).map Prod.fst).filter
        (fun v => decide (v ∉ (value_counts pop).map Prod.fst))).map
          (fun v => (v, propOf pop v, propOf samp v))).map (fun r => r.2.2)).sum = 1
    rw [List.map_map]
    exact sum_props_eq_one hnodup hcomplete.2 hsamp

/-- Witness for C6 at a concrete population and sample. -/
theorem C6_witness :
    ((comp_df ([0, 0, 1] : List ℕ) ([0, 1] : List ℕ)).map (fun r => r.2.1)).sum = 1 ∧
    ((comp_df ([0, 0, 1] : List ℕ) ([0, 1] : List ℕ)).map (fun r => r.2.2)).sum = 1 :=
  C6_proportions_sum [0, 0, 1] [0, 1] (by decide) (by decide)

theorem mem_stratum_iff [DecidableEq β] {D : List α} {f : α → β} {g : β} {q : ℕ × α} :
    q ∈ stratum D f g ↔ q ∈ D.enum ∧ f q.2 = g := by
  simp [stratum, List.mem_filter]

theorem mem_stratum_map_aux [DecidableEq β] {D : List α} {f : α → β} {aux : α → γ}
    {g : β} {v : γ} :
    v ∈ (stratum D f g).map (fun p => aux p.2) ↔ ∃ r ∈ D, f r = g ∧ aux r = v := by
  constructor
  · intro hv
    rcases List.mem_map.mp hv with ⟨q, hq, hqv⟩
    rcases mem_stratum_iff.mp hq with ⟨henum, hf⟩
    have h2 : q.2 ∈ D := by
      have := List.mem_map_of_mem Prod.snd henum
      rwa [List.enum_map_snd] at this
    exact ⟨q.2, h2, hf, hqv⟩
  · rintro ⟨r, hr, hf, ha⟩
    have hr2 : r ∈ (D.enum).map Prod.snd := by
      rw [List.enum_map_snd]
      exact hr
    rcases List.mem_map.mp hr2 with ⟨q, hq, hq2⟩
    refine List.mem_map.mpr ⟨q, mem_stratum_iff.mpr ⟨hq, ?_⟩, ?_⟩
    · rw [hq2, hf]
    · rw [hq2, ha]

theorem cross_eq_none_iff [DecidableEq β] [DecidableEq γ] (D : List α) (f : α → β)
    (aux : α → γ) (g : β) (v : γ) :
    cross D f aux g v = none ↔ ∀ r ∈ D, f r = g → aux r ≠ v := by
  simp only [cross]
  by_cases hc : ((stratum D f g).map (fun p => aux p.2)).count v = 0
  · rw [if_pos hc]
    constructor
    · intro _ r hr hf ha
      rw [List.count_eq_zero] at hc
      exact hc (mem_stratum_map_aux.mpr ⟨r, hr, hf, ha⟩)
    · intro _
      rfl
  · rw [if_neg hc]
    constructor
    · intro hcontra
      exact absurd hcontra (by simp)
    · intro hall
      have hv : v ∈ (stratum D f g).map (fun p => aux p.2) := by
        by_contra hnv
        exact hc (List.count_eq_zero.mpr hnv)
      rcases mem_stratum_map_aux.mp hv with ⟨r, hr, hf, ha⟩
      exact absurd ha (hall r hr hf)

theorem cross_eq_some_val [DecidableEq β] [DecidableEq γ] (D : List α) (f : α → β)
    (aux : α → γ) (g : β) (v : γ) (p : ℚ) (h : cross D f aux g v = some p) :
    p = pct1 ((((stratum D f g).map (fun q => aux q.2)).count v : ℚ) /
      ((stratum D f g).map (fun q => aux q.2)).length * 100) := by
  simp only [cross] at h
  by_cases hc : ((stratum D f g).map (fun q => aux q.2)).count v = 0
  · rw [if_pos hc] at h
    exact absurd h (by simp)
  · rw [if_neg hc] at h
    exact (Option.some.inj h).symm

/-- C7 (amended): every row of the auxiliary-augmented allocation table
carries one cell per distinct auxiliary value; a cell is the within-stratum
percentage rounded to one decimal when the stratum exhibits that value, and a
null (`none`, pandas `NaN`) — not 0 — when the stratum never exhibits it. -/
theorem C7_aux_cells [DecidableEq β] [DecidableEq γ] (D : List α) (f : α → β)
    (aux : α → γ) (ntot : ℕ) (row : β × ℕ × ℤ × List (Option ℚ))
    (hrow : row ∈ alloc_aux D f aux ntot) :
    row.2.2.2 = (aux_vals D aux).map (cross D f aux row.1) ∧
    ∀ v ∈ aux_vals D aux,
      (cross D f aux row.1 v = none ↔ ∀ r ∈ D, f r = row.1 → aux r ≠ v) ∧
      ∀ p : ℚ, cross D f aux row.1 v = some p →
        p = pct1 ((((stratum D f row.1).map (fun q => aux q.2)).count v : ℚ) /
          ((stratum D f row.1).map (fun q => aux q.2)).length * 100) := by
  rcases List.mem_map.mp hrow with ⟨t, _, hteq⟩
  rcases hteq with rfl
  exact ⟨rfl, fun v _ =>
    ⟨cross_eq_none_iff D f aux t.1 v, fun p hp => cross_eq_some_val D f aux t.1 v p hp⟩⟩

/-- C7 (counterexample): in the dataset `[(0,0), (1,0), (1,1)]` with strata
column `fst` and auxiliary column `snd`, stratum 0 never exhibits auxiliary
value 1, yet both strata are rows of the table and value 1 is one of its
columns: the corresponding cell is `none` (pandas `NaN`) — a null, not 0 and
not absent.  The cell-presence map of the whole table is
`[[true, true], [true, false]]`. -/
theorem C7_counterexample :
    cross ([(0, 0), (1, 0), (1, 1)] : List (ℕ × ℕ)) Prod.fst Prod.snd 0 1 = none ∧
    (0, 1) ∈ value_counts (([(0, 0), (1, 0), (1, 1)] : List (ℕ × ℕ)).map Prod.fst) ∧
    (1 : ℕ) ∈ aux_vals ([(0, 0), (1, 0), (1, 1)] : List (ℕ × ℕ)) Prod.snd ∧
    (alloc_aux ([(0, 0), (1, 0), (1, 1)] : List (ℕ × ℕ)) Prod.fst Prod.snd 2).map
      (fun t => t.2.2.2.map Option.isSome) = [[true, true], [true, false]] := by
  refine ⟨rfl, by decide, by decide, by decide⟩

/-- Witness for C7's amended statement: the first row of the concrete table. -/
theorem C7_witness :
    ((alloc_aux ([(0, 0), (1, 0), (1, 1)] : List (ℕ × ℕ)) Prod.fst Prod.snd 2).get
        ⟨0, by decide⟩).2.2.2 =
      (aux_vals ([(0, 0), (1, 0), (1, 1)] : List (ℕ × ℕ)) Prod.snd).map
        (cross ([(0, 0), (1, 0), (1, 1)] : List (ℕ × ℕ)) Prod.fst Prod.snd
          ((alloc_aux ([(0, 0), (1, 0), (1, 1)] : List (ℕ × ℕ)) Prod.fst Prod.snd 2).get
            ⟨0, by decide⟩).1) :=
  (C7_aux_cells _ _ _ _ _ (List.get_mem _ _ _)).1

theorem stratum_fst_nodup [DecidableEq β] (D : List α) (f : α → β) (g : β) :
    ((stratum D f g).map Prod.fst).Nodup := by
  have hsub : List.Sublist ((stratum D f g).map Prod.fst) ((D.enum).map Prod.fst) :=
    (List.filter_sublist _).map Prod.fst
  rw [List.enum_map_fst] at hsub
  exact List.Nodup.sublist hsub (List.nodup_range _)

theorem enum_fst_inj {D : List α} {q q' : ℕ × α} (hq : q ∈ D.enum) (hq' : q' ∈ D.enum)
    (h : q.1 = q'.1) : q = q' := by
  rcases q with ⟨i, x⟩
  rcases q' with ⟨i', x'⟩
  rcases List.mem_enum hq with ⟨hi, hx⟩
  rcases List.mem_enum hq' with ⟨hi', hx'⟩
  rcases h with rfl
  rw [hx, hx']

theorem stratum_fst_disjoint [DecidableEq β] {D : List α} {f : α → β} {g g' : β}
    (hne : g ≠ g') {q q' : ℕ × α} (hq : q ∈ stratum D f g) (hq' : q' ∈ stratum D f g') :
    q.1 ≠ q'.1 := by
  intro hfst
  rcases mem_stratum_iff.mp hq with ⟨he, hf⟩
  rcases mem_stratum_iff.mp hq' with ⟨he', hf'⟩
  rcases enum_fst_inj he he' hfst with rfl
  exact hne (hf.symm.trans hf')

theorem flatten_parts_mem [DecidableEq β] {D : List α} {f : α → β}
    {parts : List (List (ℕ × α))} {allocL : List (β × ℤ)}
    (hlen : parts.length = allocL.length)
    (hmem : ∀ (i : ℕ) (hp : i < parts.length) (ha : i < allocL.length),
      ∀ q ∈ parts.get ⟨i, hp⟩, q ∈ stratum D f (allocL.get ⟨i, ha⟩).1) :
    ∀ q ∈ parts.flatten, ∃ g ∈ allocL.map Prod.fst, q ∈ stratum D f g := by
  intro q hq
  rcases List.mem_flatten.mp hq with ⟨part, hpart, hqp⟩
  rcases List.mem_iff_get.mp hpart with ⟨⟨i, hp⟩, hget⟩
  have ha : i < allocL.length := hlen ▸ hp
  refine ⟨(allocL.get ⟨i, ha⟩).1, ?_, ?_⟩
  · exact List.mem_map_of_mem Prod.fst (List.get_mem allocL i ha)
  · exact hmem i hp ha q (by rw [hget]; exact hqp)

theorem sampled_spec [DecidableEq β] (D : List α) (f : α → β) (perms : β → List ℕ) :
    ∀ (allocL : List (β × ℤ)),
      (allocL.map Prod.fst).Nodup →
      (∀ p ∈ allocL, 0 ≤ p.2) →
      (∀ g ∈ allocL.map Prod.fst,
        List.Perm (perms g) (List.range (stratum D f g).length)) →
      ∃ l, sampled D f perms allocL = some l ∧
        l.length = (allocL.map
          (fun p => (min p.2 ((stratum D f p.1).length : ℤ)).toNat)).sum ∧
        (l.map Prod.fst).Nodup ∧
        ∃ parts : List (List (ℕ × α)), l = parts.flatten ∧
          parts.length = allocL.length ∧
          ∀ (i : ℕ) (hp : i < parts.length) (ha : i < allocL.length),
            (parts.get ⟨i, hp⟩).length =
              (min (allocL.get ⟨i, ha⟩).2
                ((stratum D f (allocL.get ⟨i, ha⟩).1).length : ℤ)).toNat ∧
            ∀ q ∈ parts.get ⟨i, hp⟩, q ∈ stratum D f (allocL.get ⟨i, ha⟩).1
  | [], _, _, _ =>
    ⟨[], rfl, rfl, List.nodup_nil, [], rfl, rfl, fun i hp => by simp at hp⟩
  | (g, s) :: rest, hkeys, hpos, hperms => by
    have hs : 0 ≤ s := hpos (g, s) (List.mem_cons_self _ _)
    have ht0 : (0 : ℤ) ≤ min s ((stratum D f g).length : ℤ) :=
      le_min hs (Int.ofNat_nonneg _)
    have hT : ¬ min s ((stratum D f g).length : ℤ) < 0 := not_lt.mpr ht0
    have htlen : (min s ((stratum D f g).length : ℤ)).toNat ≤ (stratum D f g).length :=
      Int.toNat_le.mpr (min_le_right _ _)
    have hperm : List.Perm (perms g) (List.range (stratum D f g).length) :=
      hperms g (by simp)
    have hkeys2 : (rest.map Prod.fst).Nodup := (List.nodup_cons.mp (by simpa using hkeys)).2
    have hgnot : g ∉ rest.map Prod.fst := (List.nodup_cons.mp (by simpa using hkeys)).1
    obtain ⟨l', hl', hlen', hnodup', parts', hflat', hplen', hparts'⟩ :=
      sampled_spec D f perms rest hkeys2
        (fun p hp => hpos p (List.mem_cons_of_mem _ hp))
        (fun g2 hg2 => hperms g2 (List.mem_cons_of_mem _ hg2))
    have heval : sampled D f perms ((g, s) :: rest) =
        some ((((perms g).take (min s ((stratum D f g).length : ℤ)).toNat).filterMap
          (fun i => (stratum D f g)[i]?)) ++ l') := by
      simp only [sampled, hl', if_neg hT]
    have hsellen : ((((perms g).take (min s ((stratum D f g).length : ℤ)).toNat).filterMap
        (fun i => (stratum D f g)[i]?))).length =
        (min s ((stratum D f g).length : ℤ)).toNat := by
      rw [filterMap_getElem_length _ _ (fun i hi => mem_lt_of_perm_range hperm i hi),
        List.length_take, hperm.length_eq, List.length_range]
      exact Nat.min_eq_left htlen
    have hselmem : ∀ q ∈ (((perms g).take (min s ((stratum D f g).length : ℤ)).toNat).filterMap
        (fun i => (stratum D f g)[i]?)), q ∈ stratum D f g :=
      fun _ hq => filterMap_getElem_mem hq
    have hselnodup : (((((perms g).take (min s ((stratum D f g).length : ℤ)).toNat).filterMap
        (fun i => (stratum D f g)[i]?))).map Prod.fst).Nodup :=
      subperm_nodup (subperm_map Prod.fst (selection_subperm (stratum D f g) hperm _))
        (stratum_fst_nodup D f g)
    refine ⟨_ ++ l', heval, ?_, ?_,
      (((perms g).take (min s ((stratum D f g).length : ℤ)).toNat).filterMap
        (fun i => (stratum D f g)[i]?)) :: parts', by rw [List.flatten_cons, hflat'],
      by simp [hplen'], ?_⟩
    · rw [List.length_append, hsellen, hlen', List.map_cons, List.sum_cons]
    · rw [List.map_append, List.nodup_append]
      refine ⟨hselnodup, hnodup', ?_⟩
      intro x hx hx'
      rcases List.mem_map.mp hx with ⟨q, hq, hqx⟩
      rcases List.mem_map.mp hx' with ⟨q', hq', hqx'⟩
      have hqs : q ∈ stratum D f g := hselmem q hq
      have hq's : ∃ g2 ∈ rest.map Prod.fst, q' ∈ stratum D f g2 := by
        apply flatten_parts_mem hplen' (fun i hp ha => (hparts' i hp ha).2)
        rw [← hflat']
        exact hq'
      rcases hq's with ⟨g2, hg2mem, hq'2⟩
      have hne : g ≠ g2 := fun hc => hgnot (hc ▸ hg2mem)
      exact stratum_fst_disjoint hne hqs hq'2 (hqx.trans hqx'.symm)
    · intro i hp ha
      cases i with
      | zero =>
        constructor
        · exact hsellen
        · exact hselmem
      | succ i =>
        have hp2 : i < parts'.length := by simpa using Nat.lt_of_succ_lt_succ hp
        have ha2 : i < rest.length := by simpa using Nat.lt_of_succ_lt_succ ha
        exact hparts' i hp2 ha2

/-- C5 (amended): for every dataset and every allocation whose `n_h` are all
nonnegative (a negative `n_h` — which the buggy reconciliation can produce —
makes the underlying draw raise instead), the stratified draw succeeds and
takes from each stratum, in allocation order, exactly `min(n_h, N_h)` records
of that stratum without replacement; the concatenated sample has size
`sum(min(n_h, N_h))` and no record identity occurs twice, within or across
strata. -/
theorem C5_stratified_draw [DecidableEq β] (D : List α) (f : α → β)
    (perms : β → List ℕ) (allocL : List (β × ℤ))
    (hkeys : (allocL.map Prod.fst).Nodup)
    (hpos : ∀ p ∈ allocL, 0 ≤ p.2)
    (hperms : ∀ g ∈ allocL.map Prod.fst,
      List.Perm (perms g) (List.range (stratum D f g).length)) :
    ∃ l, sampled D f perms allocL = some l ∧
      l.length = (allocL.map
        (fun p => (min p.2 ((stratum D f p.1).length : ℤ)).toNat)).sum ∧
      (l.map Prod.fst).Nodup ∧
      ∃ parts : List (List (ℕ × α)), l = parts.flatten ∧
        parts.length = allocL.length ∧
        ∀ (i : ℕ) (hp : i < parts.length) (ha : i < allocL.length),
          (parts.get ⟨i, hp⟩).length =
            (min (allocL.get ⟨i, ha⟩).2
              ((stratum D f (allocL.get ⟨i, ha⟩).1).length : ℤ)).toNat ∧
          ∀ q ∈ parts.get ⟨i, hp⟩, q ∈ stratum D f (allocL.get ⟨i, ha⟩).1 :=
  sampled_spec D f perms allocL hkeys hpos hperms

/-- C5 (counterexample to the claim as stated): on the one-record dataset
`[10]` the allocation `[(10, -1)]` — one the reconciliation step really
produces on other inputs — makes the stratified draw fail (`none`, the pandas
`ValueError`), so no sample of size `sum(min(n_h, N_h))` is returned. -/
theorem C5_counterexample :
    sampled ([10] : List ℕ) id (fun _ => [0]) [(10, -1)] = none := by decide

/-- Witness for C5 at a concrete dataset and allocation. -/
theorem C5_witness :
    ∃ l, sampled ([10, 10, 20] : List ℕ) id
        (fun g => if g = 10 then [1, 0] else [0]) [(10, 1), (20, 1)] = some l ∧
      l.length = (([(10, 1), (20, 1)] : List (ℕ × ℤ)).map
        (fun p => (min p.2 ((stratum ([10, 10, 20] : List ℕ) id p.1).length : ℤ)).toNat)).sum ∧
      (l.map Prod.fst).Nodup ∧
      ∃ parts : List (List (ℕ × ℕ)), l = parts.flatten ∧
        parts.length = ([(10, 1), (20, 1)] : List (ℕ × ℤ)).length ∧
        ∀ (i : ℕ) (hp : i < parts.length)
          (ha : i < ([(10, 1), (20, 1)] : List (ℕ × ℤ)).length),
          (parts.get ⟨i, hp⟩).length =
            (min (([(10, 1), (20, 1)] : List (ℕ × ℤ)).get ⟨i, ha⟩).2
              ((stratum ([10, 10, 20] : List ℕ) id
                (([(10, 1), (20, 1)] : List (ℕ × ℤ)).get ⟨i, ha⟩).1).length : ℤ)).toNat ∧
          ∀ q ∈ parts.get ⟨i, hp⟩, q ∈ stratum ([10, 10, 20] : List ℕ) id
            (([(10, 1), (20, 1)] : List (ℕ × ℤ)).get ⟨i, ha⟩).1 :=
  C5_stratified_draw [10, 10, 20] id (fun g => if g = 10 then [1, 0] else [0])
    [(10, 1), (20, 1)] (by decide) (by decide) (by decide)

theorem zipWith_fst_pair :
    ∀ (l1 : List (β × ℕ)) (l2 : List (β × ℤ)), l1.length = l2.length →
      (List.zipWith (fun p q => (p.1, p.2, q.2)) l1 l2).map (fun t => (t.1, t.2.1)) = l1
  | [], [], _ => rfl
  | [], _ :: _, h => by simp at h
  | _ :: _, [], h => by simp at h
  | p :: l1, q :: l2, h => by
    simp only [List.zipWith_cons_cons, List.map_cons,
      zipWith_fst_pair l1 l2 (by simpa using h)]

theorem sampled_some_parts [DecidableEq β] (D : List α) (f : α → β) (perms : β → List ℕ) :
    ∀ (allocL : List (β × ℤ)) (l : List (ℕ × α)),
      sampled D f perms allocL = some l →
      ∃ parts : List (List (ℕ × α)), l = parts.flatten ∧
        parts.length = allocL.length ∧
        ∀ (i : ℕ) (hp : i < parts.length) (ha : i < allocL.length),
          ∀ q ∈ parts.get ⟨i, hp⟩, q ∈ stratum D f (allocL.get ⟨i, ha⟩).1
  | [], l, h => by
    have h2 : ([] : List (ℕ × α)) = l := Option.some.inj h
    rcases h2 with rfl
    exact ⟨[], rfl, rfl, fun i hp => by simp at hp⟩
  | (g, s) :: rest, l, h => by
    simp only [sampled] at h
    by_cases hT : min s ((stratum D f g).length : ℤ) < 0
    · rw [if_pos hT] at h
      exact absurd h (by simp)
    · rw [if_neg hT] at h
      rcases hrest : sampled D f perms rest with _ | l'
      · rw [hrest] at h
        exact absurd h (by simp)
      · rw [hrest] at h
        have hl : l = (((perms g).take (min s ((stratum D f g).length : ℤ)).toNat).filterMap
            (fun i => (stratum D f g)[i]?)) ++ l' := (Option.some.inj h).symm
        obtain ⟨parts', h1, h2, h3⟩ := sampled_some_parts D f perms rest l' hrest
        refine ⟨(((perms g).take (min s ((stratum D f g).length : ℤ)).toNat).filterMap
          (fun i => (stratum D f g)[i]?)) :: parts', ?_, by simp [h2], ?_⟩
        · rw [hl, List.flatten_cons, h1]
        · intro i hp ha
          cases i with
          | zero => exact fun q hq => filterMap_getElem_mem hq
          | succ i =>
            exact h3 i (by simpa using Nat.lt_of_succ_lt_succ hp)
              (by simpa using Nat.lt_of_succ_lt_succ ha)

/-- C10: the strata iteration order of the pipeline is count-descending:
the counts table is sorted by `N_h` descending; the allocation table pairs the
strata with exactly those counts in that order; the stratum absorbing the
reconciliation diff is the first maximal one of that order; and any
successful stratified draw is the concatenation, in that same order, of
per-stratum draws each taken inside its own stratum. -/
theorem C10_iteration_order [DecidableEq β] (D : List α) (f : α → β) (ntot : ℕ)
    (perms : β → List ℕ) (h1 : 1 ≤ ntot) (h2 : ntot ≤ (D.map f).length) :
    List.Sorted (fun a b : ℕ => b ≤ a) ((value_counts (D.map f)).map Prod.snd) ∧
    (alloc_df (D.map f) ntot).map (fun t => (t.1, t.2.1)) = value_counts (D.map f) ∧
    (∃ j : Fin (raw_alloc (D.map f) ntot).length,
      j.1 = firstMaxIdx ((raw_alloc (D.map f) ntot).map Prod.snd) ∧
      (∀ i : Fin (raw_alloc (D.map f) ntot).length,
        ((raw_alloc (D.map f) ntot).get i).2 ≤ ((raw_alloc (D.map f) ntot).get j).2) ∧
      (∀ i : Fin (raw_alloc (D.map f) ntot).length, i.1 < j.1 →
        ((raw_alloc (D.map f) ntot).get i).2 < ((raw_alloc (D.map f) ntot).get j).2) ∧
      (alloc (D.map f) ntot).length = (raw_alloc (D.map f) ntot).length ∧
      ∀ (i : ℕ) (ha : i < (alloc (D.map f) ntot).length)
        (hr : i < (raw_alloc (D.map f) ntot).length),
        (alloc (D.map f) ntot).get ⟨i, ha⟩ =
          if i = j.1 then
            (((raw_alloc (D.map f) ntot).get j).1,
              ((raw_alloc (D.map f) ntot).get j).2 +
                ((ntot : ℤ) - ((raw_alloc (D.map f) ntot).map Prod.snd).sum))
          else (raw_alloc (D.map f) ntot).get ⟨i, hr⟩) ∧
    ∀ l, sampled D f perms (alloc (D.map f) ntot) = some l →
      ∃ parts : List (List (ℕ × α)), l = parts.flatten ∧
        parts.length = (alloc (D.map f) ntot).length ∧
        ∀ (i : ℕ) (hp : i < parts.length) (ha : i < (alloc (D.map f) ntot).length),
          ∀ q ∈ parts.get ⟨i, hp⟩,
            q ∈ stratum D f ((alloc (D.map f) ntot).get ⟨i, ha⟩).1 := by
  have hm : (D.map f) ≠ [] := ne_nil_of_bounds h1 h2
  refine ⟨?_, ?_, alloc_reconcile (D.map f) ntot hm, ?_⟩
  · exact List.pairwise_map.mpr (value_counts_sorted (D.map f))
  · apply zipWith_fst_pair
    rw [← raw_alloc_length (D.map f) ntot, ← alloc_length (D.map f) ntot]
  · intro l hl
    exact sampled_some_parts D f perms (alloc (D.map f) ntot) l hl

/-- Witness for C10 at a concrete dataset, strata map and permutations. -/
theorem C10_witness :
    List.Sorted (fun a b : ℕ => b ≤ a)
      ((value_counts (([0, 0, 1] : List ℕ).map id)).map Prod.snd) ∧
    (alloc_df (([0, 0, 1] : List ℕ).map id) 2).map (fun t => (t.1, t.2.1)) =
      value_counts (([0, 0, 1] : List ℕ).map id) ∧
    (∃ j : Fin (raw_alloc (([0, 0, 1] : List ℕ).map id) 2).length,
      j.1 = firstMaxIdx ((raw_alloc (([0, 0, 1] : List ℕ).map id) 2).map Prod.snd) ∧
      (∀ i : Fin (raw_alloc (([0, 0, 1] : List ℕ).map id) 2).length,
        ((raw_alloc (([0, 0, 1] : List ℕ).map id) 2).get i).2 ≤
          ((raw_alloc (([0, 0, 1] : List ℕ).map id) 2).get j).2) ∧
      (∀ i : Fin (raw_alloc (([0, 0, 1] : List ℕ).map id) 2).length, i.1 < j.1 →
        ((raw_alloc (([0, 0, 1] : List ℕ).map id) 2).get i).2 <
          ((raw_alloc (([0, 0, 1] : List ℕ).map id) 2).get j).2) ∧
      (alloc (([0, 0, 1] : List ℕ).map id) 2).length =
        (raw_alloc (([0, 0, 1] : List ℕ).map id) 2).length ∧
      ∀ (i : ℕ) (ha : i < (alloc (([0, 0, 1] : List ℕ).map id) 2).length)
        (hr : i < (raw_alloc (([0, 0, 1] : List ℕ).map id) 2).length),
        (alloc (([0, 0, 1] : List ℕ).map id) 2).get ⟨i, ha⟩ =
          if i = j.1 then
            (((raw_alloc (([0, 0, 1] : List ℕ).map id) 2).get j).1,
              ((raw_alloc (([0, 0, 1] : List ℕ).map id) 2).get j).2 +
                ((2 : ℤ) - ((raw_alloc (([0, 0, 1] : List ℕ).map id) 2).map Prod.snd).sum))
          else (raw_alloc (([0, 0, 1] : List ℕ).map id) 2).get ⟨i, hr⟩) ∧
    ∀ l, sampled ([0, 0, 1] : List ℕ) id (fun g => if g = 0 then [0, 1] else [0])
        (alloc (([0, 0, 1] : List ℕ).map id) 2) = some l →
      ∃ parts : List (List (ℕ × ℕ)), l = parts.flatten ∧
        parts.length = (alloc (([0, 0, 1] : List ℕ).map id) 2).length ∧
        ∀ (i : ℕ) (hp : i < parts.length)
          (ha : i < (alloc (([0, 0, 1] : List ℕ).map id) 2).length),
          ∀ q ∈ parts.get ⟨i, hp⟩,
            q ∈ stratum ([0, 0, 1] : List ℕ) id
              ((alloc (([0, 0, 1] : List ℕ).map id) 2).get ⟨i, ha⟩).1 :=
  C10_iteration_order [0, 0, 1] id 2 (fun g => if g = 0 then [0, 1] else [0])
    (by decide) (by decide)

end Sondage
